import Mathlib

/-!
Shallow embedding of `neo/mame.go` from the terraonion repository.

Byte streams (`io.Reader` values that are drained exactly once) are modelled
as `List Nat` of byte values; draining a reader corresponds to taking the
whole list.  Go code that can fail is modelled in `Except GoFailure`:
`GoFailure.crash` stands for a Go runtime panic (an index-out-of-range access),
`GoFailure.readErr` stands for an error value returned through the `error`
result (such as `io.EOF` surfaced by `io.CopyN`).
-/

namespace Terraonion

/-- Failure modes of the Go code: a runtime panic (out-of-range index) versus
an `error` value returned to the caller. -/
inductive GoFailure where
  | crash
  | readErr
deriving DecidableEq

instance {ε α : Type} [DecidableEq ε] [DecidableEq α] : DecidableEq (Except ε α) :=
  fun a b =>
    match a, b with
    | .ok x, .ok y =>
      if h : x = y then .isTrue (by rw [h]) else .isFalse (fun he => h (Except.ok.inj he))
    | .error x, .error y =>
      if h : x = y then .isTrue (by rw [h]) else .isFalse (fun he => h (Except.error.inj he))
    | .ok _, .error _ => .isFalse (fun he => Except.noConfusion he)
    | .error _, .ok _ => .isFalse (fun he => Except.noConfusion he)

/-- Source constant `oneMB = 1 << 20`. -/
def oneMB : Nat := 1048576

/-- Source constant `twoMB = 2 << 20`. -/
def twoMB : Nat := 2097152

/-- Source struct `mameROM`: one chip of the catalog (filename, declared size,
checksum). -/
structure mameROM where
  filename : String
  size : Nat
  crc : List Nat
deriving DecidableEq

/-- Source struct `mameArea`: declared size plus the ordered chip list. -/
structure mameArea where
  size : Nat
  rom : List mameROM
deriving DecidableEq

/-- Source method `mameArea.padSize`: the maximum declared chip size of the
area. -/
def mameArea.padSize (a : mameArea) : Nat :=
  a.rom.foldl (fun pad r => if pad < r.size then r.size else pad) 0

/-- Source struct `mameGame`.  The area count `Areas` and the indices
`P = 0, S = 1, M = 2, V1 = 3, V2 = 4, C = 5` are declared outside the analyzed
slice; modelled from the spec: the area enumeration is a fixed, small
hardware-given set containing program (P), fix (S), sound (M), sample (V1,
V2) and graphics (C) regions. -/
structure mameGame where
  parent : String
  area : Fin 6 → mameArea

/-- Modelled from the spec: `BitPermute(value, order)` — result bit k (most
significant first) is input bit `order[k]`.  This is the contract of the
source helpers `bitswapUint16` (16-entry order) and `bitswapInt` (24-entry
order), which are declared outside the analyzed slice. -/
def bitPermute (order : List Nat) (x : Nat) : Nat :=
  order.foldl (fun acc b => 2 * acc + (if x.testBit b then 1 else 0)) 0

/-- Source function `uint16SliceToBytes`: little-endian repacking of a word
slice (`binary.LittleEndian.PutUint16` writes low byte first). -/
def uint16SliceToBytes (rom : List Nat) : List Nat :=
  rom.flatMap (fun x => [x % 256, x / 256 % 256])

/-- The word-unpacking loop of `smaPReader` (lines 133-137): word i is
`binary.LittleEndian.Uint16(b[i*2:(i+1)*2])`. -/
def bytesToUint16 (b : List Nat) : List Nat :=
  (List.range (b.length / 2)).map (fun i => b.getD (2 * i) 0 + 256 * b.getD (2 * i + 1) 0)

/-- Whether `p` occurs at the start of `s`. -/
def charsLeadWith : List Char → List Char → Bool
  | [], _ => true
  | _ :: _, [] => false
  | a :: as, b :: bs => a == b && charsLeadWith as bs

/-- Whether `p` occurs anywhere inside `s`. -/
def charsContain (p : List Char) : List Char → Bool
  | [] => p.isEmpty
  | c :: t => charsLeadWith p (c :: t) || charsContain p t

/-- Model of `regexp.MustCompile` applied to the pattern matching `.ep`
anywhere in the filename (the unanchored regex used for patch chips). -/
def epMatch (s : String) : Bool :=
  charsContain ".ep".data s.data

/-- A nilable regexp (`*regexp.Regexp`) together with `MatchString`: `none`
(nil pattern) matches nothing. -/
def matchQ (re : Option (String → Bool)) (s : String) : Bool :=
  match re with
  | none => false
  | some f => f s

/-- The partition loop at the top of `commonPReader` (lines 84-94): chips whose
filename matches the pattern become patch streams, the rest stay as body
chips paired with their streams, both groups in catalog order. -/
def splitP (a : mameArea) (readers : List (List Nat)) (re : Option (String → Bool)) :
    List (List Nat) × List (mameROM × List Nat) :=
  let ps := a.rom.zip readers
  ((ps.filter (fun p => matchQ re p.1.filename)).map (fun p => p.2),
   ps.filter (fun p => !matchQ re p.1.filename))

/-- The patch buffer: `ioutil.ReadAll(io.MultiReader(patches...))`. -/
def patchBytes (a : mameArea) (readers : List (List Nat)) (re : Option (String → Bool)) :
    List Nat :=
  (splitP a readers re).1.flatten

/-- Source function `commonPReader` (lines 80-125).  A stream shortfall against
`a.rom` indexing is a panic (`readers[j]` out of range), as is `roms[0]` when
every chip is a patch chip; `io.CopyN` shortfalls surface as returned errors. -/
def commonPReader (a : mameArea) (readers : List (List Nat)) (re : Option (String → Bool)) :
    Except GoFailure (List Nat) :=
  if readers.length < a.rom.length then .error .crash else
  match (splitP a readers re).2 with
  | [] => .error .crash
  | (r0, s0) :: rest =>
    match (if r0.size = twoMB then
            (if s0.length < oneMB then .error .readErr
             else .ok (s0.drop oneMB ++ s0.take oneMB) : Except GoFailure (List Nat))
          else .ok s0) with
    | .error e => .error e
    | .ok c0 =>
      if (c0 ++ (rest.map (fun p => p.2)).flatten).length <
          (patchBytes a readers re).length then .error .readErr
      else .ok (patchBytes a readers re ++
        (c0 ++ (rest.map (fun p => p.2)).flatten).drop (patchBytes a readers re).length)

/-- The corrected body concatenation of the program area: the body streams
joined in order, the first one half-swapped when its chip's declared size is
exactly 2 MiB (lines 105-117). -/
def correctedBody (a : mameArea) (readers : List (List Nat)) (re : Option (String → Bool)) :
    List Nat :=
  match (splitP a readers re).2 with
  | [] => []
  | (r0, s0) :: rest =>
    (if r0.size = twoMB then s0.drop oneMB ++ s0.take oneMB else s0) ++
      (rest.map (fun p => p.2)).flatten

/-- Model of the external `plumbing.PaddedReader(r, n, 0)`: the stream is
zero-padded at its end up to `n` bytes (a stream already at least `n` bytes
long is passed through). -/
def padTo (n : Nat) (b : List Nat) : List Nat :=
  b ++ List.replicate (n - b.length) 0

/-- The `i < len(readers)-1` padding pattern shared by `commonPaddedReader`
and `commonCReader`: every stream except the last is padded to `n`. -/
def padAllButLast (n : Nat) : List (List Nat) → List (List Nat)
  | [] => []
  | [x] => [x]
  | x :: y :: xs => padTo n x :: padAllButLast n (y :: xs)

/-- Source function `commonPaddedReader` (lines 160-171): concatenation with
every stream but the last padded to the area pad size.  It performs no
stream-count check and cannot fail on in-memory streams. -/
def commonPaddedReader (a : mameArea) (readers : List (List Nat)) :
    Except GoFailure (List Nat) :=
  .ok (padAllButLast a.padSize readers).flatten

/-- Modelled from the spec: `InterleaveBytes(streams, unit)` — the output
cycles `unit` bytes from each stream in order until exhaustion.  This is the
contract of the source helper `interleaveROM`, declared outside the analyzed
slice. -/
def interleaveROM (unit : Nat) (ss : List (List Nat)) : List Nat :=
  let rounds := ((ss.map List.length).foldr max 0 + unit - 1) / unit
  (List.range rounds).flatMap (fun r => ss.flatMap (fun s => (s.drop (r * unit)).take unit))

/-- The pairing loop of `commonCReader` (lines 144-155): streams are taken two
at a time and interleaved at unit 1; an odd stream count makes the Go code
panic at `readers[i+1]`. -/
def cPairs : List (List Nat) → Option (List (List Nat))
  | [] => some []
  | [_] => none
  | x :: y :: rest =>
    match cPairs rest with
    | none => none
    | some l => some (interleaveROM 1 [x, y] :: l)

/-- Source function `commonCReader` (lines 141-158): pairwise unit-1
interleave, every intermediate except the last padded to `padSize()*2`,
then concatenated. -/
def commonCReader (a : mameArea) (readers : List (List Nat)) :
    Except GoFailure (List Nat) :=
  match cPairs readers with
  | none => .error .crash
  | some l => .ok (padAllButLast (a.padSize * 2) l).flatten

/-- The `f.ROM` array written by a strategy, as a function from area index to
byte buffer. -/
def mkImage (p s m v1 v2 c : List Nat) : Fin 6 → List Nat :=
  fun i => [p, s, m, v1, v2, c].getD i.val []

/-- The `common` strategy's `read` (lines 234-253): P via `commonPReader` with
the `.ep` pattern, C via `commonCReader`, everything else via
`commonPaddedReader`, areas processed in index order. -/
def commonRead (g : mameGame) (readers : Fin 6 → List (List Nat)) :
    Except GoFailure (Fin 6 → List Nat) := do
  let p ← commonPReader (g.area 0) (readers 0) (some epMatch)
  let s ← commonPaddedReader (g.area 1) (readers 1)
  let m ← commonPaddedReader (g.area 2) (readers 2)
  let v1 ← commonPaddedReader (g.area 3) (readers 3)
  let v2 ← commonPaddedReader (g.area 4) (readers 4)
  let c ← commonCReader (g.area 5) (readers 5)
  return mkImage p s m v1 v2 c

/-- Ascending loop combinator: `iterN f n x` runs `x := f i x` for
`i = 0, 1, ..., n-1`, mirroring a Go `for i := 0; i < n; i++` loop. -/
def iterN {α : Type} (f : Nat → α → α) : Nat → α → α
  | 0, x => x
  | n + 1, x => f n (iterN f n x)

/-- The SMA data-line descramble loop (`for i := 0; i < 0x800000/2; i++`):
word `i + 0x080000` is bit-permuted in place. -/
def dataPass (tbl : List Nat) (x : List Nat) : List Nat :=
  iterN (fun i y => y.set (i + 0x80000) (bitPermute tbl (y.getD (i + 0x80000) 0))) 0x400000 x

/-- The SMA address-descramble loop (`for i := 0; i < 0xc0000/2; i++`):
word `i` is overwritten with the word at `base + bitPermute(i, tbl)`. -/
def addrPass (base : Nat) (tbl : List Nat) (x : List Nat) : List Nat :=
  iterN (fun i y => y.set i (y.getD (base + bitPermute tbl i) 0)) 0x60000 x

/-- The copy buffer of one block-shuffle iteration (`buf := make(...)` then
`copy(buf, rom[start:])`, which zero-fills past the end of `rom`). -/
def blockBuf (bw start : Nat) (x : List Nat) : List Nat :=
  (List.range bw).map (fun j => x.getD (start + j) 0)

/-- One block of the SMA block-local shuffle: the `bw` words starting at
`start` are copied to `buf` and written back permuted (`rom[start+j] =
buf[bitPermute(j, tbl)]`). -/
def blockStep (tbl : List Nat) (bw start : Nat) (x : List Nat) : List Nat :=
  iterN (fun j y => y.set (start + j) ((blockBuf bw start x).getD (bitPermute tbl j) 0)) bw x

/-- The SMA block-local shuffle over `n` consecutive blocks of `bw` words
starting at word `0x080000`. -/
def blockPass (tbl : List Nat) (bw n : Nat) (x : List Nat) : List Nat :=
  iterN (fun k y => blockStep tbl bw (0x80000 + k * bw) y) n x

/-- The per-title SMA parameters: data-line order, address-descramble base and
order, block size, block count and intra-block order, and whether the source
runs the block shuffle before the address descramble. -/
structure SmaTitle where
  dataBits : List Nat
  addrBase : Nat
  addrBits : List Nat
  blockWords : Nat
  nblocks : Nat
  blockBits : List Nat
  blockFirst : Bool
deriving DecidableEq

/-- Tables of `garou.read` (lines 325-368). -/
def garouT : SmaTitle :=
  ⟨[13, 12, 14, 10, 8, 2, 3, 1, 5, 9, 11, 4, 15, 0, 6, 7],
   0x710000 / 2,
   [23, 22, 21, 20, 19, 18, 4, 5, 16, 14, 7, 9, 6, 13, 17, 15, 3, 1, 2, 12, 11, 8, 10, 0],
   0x8000 / 2,
   0x800000 / 0x8000,
   [23, 22, 21, 20, 19, 18, 17, 16, 15, 14, 9, 4, 8, 3, 13, 6, 2, 7, 0, 12, 1, 11, 10, 5],
   false⟩

/-- Tables of `garouh.read` (lines 373-416). -/
def garouhT : SmaTitle :=
  ⟨[14, 5, 1, 11, 7, 4, 10, 15, 3, 12, 8, 13, 0, 2, 9, 6],
   0x7f8000 / 2,
   [23, 22, 21, 20, 19, 18, 5, 16, 11, 2, 6, 7, 17, 3, 12, 8, 14, 4, 0, 9, 1, 10, 15, 13],
   0x8000 / 2,
   0x800000 / 0x8000,
   [23, 22, 21, 20, 19, 18, 17, 16, 15, 14, 12, 8, 1, 7, 11, 3, 13, 10, 6, 9, 5, 4, 0, 2],
   false⟩

/-- Tables of `kof99.read` (lines 550-593); the block shuffle (range
`0x600000/2`, block `0x800/2`) runs before the address descramble. -/
def kof99T : SmaTitle :=
  ⟨[13, 7, 3, 0, 9, 4, 5, 6, 1, 12, 8, 14, 10, 11, 2, 15],
   0x700000 / 2,
   [23, 22, 21, 20, 19, 18, 11, 6, 14, 17, 16, 5, 8, 10, 12, 0, 4, 3, 2, 7, 9, 15, 13, 1],
   0x800 / 2,
   0x600000 / 0x800,
   [23, 22, 21, 20, 19, 18, 17, 16, 15, 14, 13, 12, 11, 10, 6, 2, 4, 9, 8, 3, 1, 7, 0, 5],
   true⟩

/-- Tables of `kof2000.read` (lines 458-507); the block shuffle (range
`0x63a000/2`, block `0x800/2`) runs before the address descramble. -/
def kof2000T : SmaTitle :=
  ⟨[12, 8, 11, 3, 15, 14, 7, 0, 10, 13, 6, 5, 9, 2, 1, 4],
   0x73a000 / 2,
   [23, 22, 21, 20, 19, 18, 8, 4, 15, 13, 3, 14, 16, 2, 6, 17, 7, 12, 10, 0, 5, 11, 1, 9],
   0x800 / 2,
   0x63a000 / 0x800,
   [23, 22, 21, 20, 19, 18, 17, 16, 15, 14, 13, 12, 11, 10, 4, 1, 3, 8, 6, 2, 7, 0, 9, 5],
   true⟩

/-- Tables of `mslug3.read` (lines 705-748). -/
def mslug3T : SmaTitle :=
  ⟨[4, 11, 14, 3, 1, 13, 0, 7, 2, 8, 12, 15, 10, 9, 5, 6],
   0x5d0000 / 2,
   [23, 22, 21, 20, 19, 18, 15, 2, 1, 13, 3, 0, 9, 6, 16, 4, 11, 5, 7, 12, 17, 14, 10, 8],
   0x10000 / 2,
   0x800000 / 0x10000,
   [23, 22, 21, 20, 19, 18, 17, 16, 15, 2, 11, 0, 14, 6, 4, 13, 8, 9, 3, 10, 7, 5, 12, 1],
   false⟩

/-- Tables of `mslug3a.read` (lines 753-796). -/
def mslug3aT : SmaTitle :=
  ⟨[2, 11, 12, 14, 9, 3, 1, 4, 13, 7, 6, 8, 10, 15, 0, 5],
   0x5d0000 / 2,
   [23, 22, 21, 20, 19, 18, 1, 16, 14, 7, 17, 5, 8, 4, 15, 6, 3, 2, 0, 13, 10, 12, 9, 11],
   0x10000 / 2,
   0x800000 / 0x10000,
   [23, 22, 21, 20, 19, 18, 17, 16, 15, 12, 0, 11, 3, 4, 13, 6, 8, 14, 7, 5, 2, 10, 9, 1],
   false⟩

/-- The six SMA title strategies. -/
def smaTitles : List SmaTitle := [garouT, garouhT, kof99T, kof2000T, mslug3T, mslug3aT]

/-- The three SMA passes in the order the title's source runs them: the
data-line permutation is always first; the block shuffle and the address
descramble follow in the per-title order. -/
def smaDescramble (t : SmaTitle) (x : List Nat) : List Nat :=
  if t.blockFirst then
    addrPass t.addrBase t.addrBits
      (blockPass t.blockBits t.blockWords t.nblocks (dataPass t.dataBits x))
  else
    blockPass t.blockBits t.blockWords t.nblocks
      (addrPass t.addrBase t.addrBits (dataPass t.dataBits x))

/-- `smaPReader` (lines 127-139) followed by the title's three passes and the
final repacking.  The Go passes index the word array without a bounds check;
every index they touch is in range exactly when the array has at least
`0x480000` words (the data pass alone touches words `0x080000` to
`0x47ffff`, and each address-descramble source index stays below
`addrBase + 0x80000 ≤ 0x47c000`), so a shorter array is a runtime panic. -/
def smaPRead (t : SmaTitle) (readers : List (List Nat)) : Except GoFailure (List Nat) :=
  if 0x480000 ≤ (bytesToUint16 (List.replicate 0xc0000 0 ++ readers.flatten)).length then
    .ok (uint16SliceToBytes
      (smaDescramble t (bytesToUint16 (List.replicate 0xc0000 0 ++ readers.flatten))))
  else .error .crash

/-- Source function `commonCMC42Reader` (lines 173-197), with the external
collaborators `cmc42GfxDecrypt` and `cmcSfixDecrypt` (out of the analyzed
slice) passed as the functions `gfx` and `sfix`: S is skipped and derived
from the decrypted C output. -/
def commonCMC42Reader (gfx : List Nat → Nat → List Nat) (sfix : List Nat → Nat → List Nat)
    (xor : Nat) (g : mameGame) (readers : Fin 6 → List (List Nat)) :
    Except GoFailure (Fin 6 → List Nat) := do
  let p ← commonPReader (g.area 0) (readers 0) (some epMatch)
  let m ← commonPaddedReader (g.area 2) (readers 2)
  let v1 ← commonPaddedReader (g.area 3) (readers 3)
  let v2 ← commonPaddedReader (g.area 4) (readers 4)
  let cb ← commonCReader (g.area 5) (readers 5)
  let c := gfx cb xor
  return mkImage p (sfix c (g.area 1).size) m v1 v2 c

/-- Source function `commonCMC50Reader` (lines 199-229): as CMC42 plus the
sound area passed through `cmc50M1Decrypt` (the external collaborator
`m1d`). -/
def commonCMC50Reader (gfx : List Nat → Nat → List Nat) (sfix : List Nat → Nat → List Nat)
    (m1d : List Nat → List Nat) (xor : Nat) (g : mameGame)
    (readers : Fin 6 → List (List Nat)) : Except GoFailure (Fin 6 → List Nat) := do
  let p ← commonPReader (g.area 0) (readers 0) (some epMatch)
  let m0 ← commonPaddedReader (g.area 2) (readers 2)
  let m := m1d m0
  let v1 ← commonPaddedReader (g.area 3) (readers 3)
  let v2 ← commonPaddedReader (g.area 4) (readers 4)
  let cb ← commonCReader (g.area 5) (readers 5)
  let c := gfx cb xor
  return mkImage p (sfix c (g.area 1).size) m v1 v2 c

/-- The shape shared by the six SMA strategy `read` methods (garou, garouh,
kof99, kof2000, mslug3, mslug3a): P via the SMA engine, S skipped and derived
from C, M through `m1d` when the title is CMC50-generation (kof2000),
everything else padded. -/
def smaCmcRead (t : SmaTitle) (gfx : List Nat → Nat → List Nat)
    (sfix : List Nat → Nat → List Nat) (m1d : Option (List Nat → List Nat)) (xor : Nat)
    (g : mameGame) (readers : Fin 6 → List (List Nat)) :
    Except GoFailure (Fin 6 → List Nat) := do
  let p ← smaPRead t (readers 0)
  let m0 ← commonPaddedReader (g.area 2) (readers 2)
  let m := match m1d with
    | none => m0
    | some f => f m0
  let v1 ← commonPaddedReader (g.area 3) (readers 3)
  let v2 ← commonPaddedReader (g.area 4) (readers 4)
  let cb ← commonCReader (g.area 5) (readers 5)
  let c := gfx cb xor
  return mkImage p (sfix c (g.area 1).size) m v1 v2 c

/-! Helper lemmas about `List.getD`, `List.set` and the loop combinator. -/

theorem getD_set_self (l : List Nat) (i v d : Nat) (h : i < l.length) :
    (l.set i v).getD i d = v := by
  simp [List.getD_eq_getElem?_getD, List.getElem?_set_self, h]

theorem getD_set_ne (l : List Nat) {i j : Nat} (v d : Nat) (h : i ≠ j) :
    (l.set i v).getD j d = l.getD j d := by
  simp [List.getD_eq_getElem?_getD, List.getElem?_set_ne h]

theorem getD_of_len_le (l : List Nat) {i : Nat} (d : Nat) (h : l.length ≤ i) :
    l.getD i d = d := by
  simp [List.getD_eq_getElem?_getD, List.getElem?_eq_none h]

theorem iterN_length {f : Nat → List Nat → List Nat}
    (hf : ∀ i y, (f i y).length = y.length) :
    ∀ n x, (iterN f n x).length = x.length := by
  intro n
  induction n with
  | zero => intro x; rfl
  | succ n ih => intro x; rw [iterN, hf, ih]

/-! Facts about `bitPermute`. -/

theorem bitPermute_of_zero (tbl : List Nat) : bitPermute tbl 0 = 0 := by
  have aux : ∀ l : List Nat,
      List.foldl (fun acc b => 2 * acc + (if Nat.testBit 0 b then 1 else 0)) 0 l = 0 := by
    intro l
    induction l with
    | nil => rfl
    | cons b l ih => simpa [Nat.zero_testBit] using ih
  exact aux tbl

theorem bitPermute_foldl_le (x : Nat) :
    ∀ (l : List Nat) (acc : Nat),
      List.foldl (fun a b => 2 * a + (if x.testBit b then 1 else 0)) acc l + 1 ≤
        (acc + 1) * 2 ^ l.length := by
  intro l
  induction l with
  | nil => intro acc; simp
  | cons b l ih =>
    intro acc
    have step : 2 * acc + (if x.testBit b then 1 else 0) + 1 ≤ 2 * (acc + 1) := by
      by_cases h : x.testBit b <;> simp [h] <;> omega
    calc List.foldl (fun a b => 2 * a + (if x.testBit b then 1 else 0))
          (2 * acc + (if x.testBit b then 1 else 0)) l + 1
        ≤ (2 * acc + (if x.testBit b then 1 else 0) + 1) * 2 ^ l.length := ih _
      _ ≤ 2 * (acc + 1) * 2 ^ l.length := Nat.mul_le_mul_right _ step
      _ = (acc + 1) * 2 ^ (b :: l).length := by
          simp only [List.length_cons, Nat.pow_succ]; ring

theorem bitPermute_append_lt (pre post : List Nat) (x w : Nat)
    (hpre : ∀ b ∈ pre, w ≤ b) (hx : x < 2 ^ w) :
    bitPermute (pre ++ post) x < 2 ^ post.length := by
  have hbit : ∀ b ∈ pre, x.testBit b = false := by
    intro b hb
    exact Nat.testBit_lt_two_pow
      (lt_of_lt_of_le hx (Nat.pow_le_pow_right (by omega) (hpre b hb)))
  have hzero : ∀ l : List Nat, (∀ b ∈ l, x.testBit b = false) →
      List.foldl (fun a b => 2 * a + (if x.testBit b then 1 else 0)) 0 l = 0 := by
    intro l
    induction l with
    | nil => intro _; rfl
    | cons b t ih =>
      intro h
      have hb := h b (by simp)
      simp only [List.foldl_cons, hb, if_false, Nat.mul_zero, Nat.add_zero]
      exact ih (fun c hc => h c (by simp [hc]))
  have hle := bitPermute_foldl_le x post 0
  have heq : bitPermute (pre ++ post) x =
      List.foldl (fun a b => 2 * a + (if x.testBit b then 1 else 0)) 0 post := by
    rw [bitPermute, List.foldl_append, hzero pre hbit]
  omega

/-! Characterizations of the three SMA passes. -/

theorem dataPass_length (tbl : List Nat) (x : List Nat) :
    (dataPass tbl x).length = x.length :=
  iterN_length (fun _ _ => List.length_set ..) _ x

theorem addrPass_length (base : Nat) (tbl : List Nat) (x : List Nat) :
    (addrPass base tbl x).length = x.length :=
  iterN_length (fun _ _ => List.length_set ..) _ x

theorem blockStep_length (tbl : List Nat) (bw start : Nat) (x : List Nat) :
    (blockStep tbl bw start x).length = x.length :=
  iterN_length (fun _ _ => List.length_set ..) _ x

theorem blockPass_length (tbl : List Nat) (bw n : Nat) (x : List Nat) :
    (blockPass tbl bw n x).length = x.length :=
  iterN_length (fun _ _ => blockStep_length ..) _ x

theorem dataPass_getD (tbl : List Nat) (x : List Nat) (j : Nat) :
    (dataPass tbl x).getD j 0 =
      if 0x80000 ≤ j ∧ j < 0x480000 then bitPermute tbl (x.getD j 0) else x.getD j 0 := by
  have aux : ∀ n j,
      (iterN (fun i y => y.set (i + 0x80000) (bitPermute tbl (y.getD (i + 0x80000) 0))) n x).getD
          j 0 =
        if 0x80000 ≤ j ∧ j < 0x80000 + n then bitPermute tbl (x.getD j 0) else x.getD j 0 := by
    intro n
    induction n with
    | zero => intro j; rw [iterN, if_neg (by omega)]
    | succ n ih =>
      intro j
      have hlen :
          (iterN (fun i y => y.set (i + 0x80000) (bitPermute tbl (y.getD (i + 0x80000) 0))) n
            x).length = x.length :=
        iterN_length (fun _ _ => List.length_set ..) _ x
      rw [iterN]
      by_cases hj : j = n + 0x80000
      · subst hj
        have hread := ih (n + 0x80000)
        rw [if_neg (by omega)] at hread
        by_cases hb : n + 0x80000 < x.length
        · rw [getD_set_self _ _ _ _ (by rw [hlen]; omega), hread, if_pos (by omega)]
        · have hge : x.length ≤ n + 0x80000 := Nat.le_of_not_lt hb
          rw [List.set_eq_of_length_le (by rw [hlen]; omega), hread, if_pos (by omega),
            getD_of_len_le x 0 hge, bitPermute_of_zero]
      · rw [getD_set_ne _ _ _ (fun h => hj h.symm), ih j]
        by_cases hc : 0x80000 ≤ j ∧ j < 0x80000 + n
        · rw [if_pos hc, if_pos (by omega)]
        · rw [if_neg hc, if_neg (by omega)]
  have h := aux 0x400000 j
  rw [dataPass, h]

theorem addrPass_getD (base : Nat) (tbl : List Nat) (x : List Nat) (i : Nat)
    (hb : 0x60000 ≤ base) (hi : i < 0x60000) :
    (addrPass base tbl x).getD i 0 = x.getD (base + bitPermute tbl i) 0 := by
  have aux : ∀ n, n ≤ 0x60000 → ∀ j,
      (iterN (fun i y => y.set i (y.getD (base + bitPermute tbl i) 0)) n x).getD j 0 =
        if j < n then x.getD (base + bitPermute tbl j) 0 else x.getD j 0 := by
    intro n
    induction n with
    | zero => intro _ j; rw [iterN, if_neg (by omega)]
    | succ n ih =>
      intro hn j
      have hlen :
          (iterN (fun i y => y.set i (y.getD (base + bitPermute tbl i) 0)) n x).length =
            x.length :=
        iterN_length (fun _ _ => List.length_set ..) _ x
      rw [iterN]
      have hread := ih (by omega) (base + bitPermute tbl n)
      rw [if_neg (by omega)] at hread
      by_cases hj : j = n
      · subst hj
        by_cases hb2 : j < x.length
        · rw [getD_set_self _ _ _ _ (by rw [hlen]; omega), hread, if_pos (by omega)]
        · have hge : x.length ≤ j := Nat.le_of_not_lt hb2
          rw [List.set_eq_of_length_le (by rw [hlen]; omega), ih (by omega) j,
            if_neg (by omega), if_pos (by omega),
            getD_of_len_le x 0 hge, getD_of_len_le x 0 (by omega)]
      · rw [getD_set_ne _ _ _ (fun h => hj h.symm), ih (by omega) j]
        by_cases hc : j < n
        · rw [if_pos hc, if_pos (by omega)]
        · rw [if_neg hc, if_neg (by omega)]
  have h := aux 0x60000 (le_refl _) i
  rw [addrPass, h, if_pos hi]

theorem addrPass_getD_hi (base : Nat) (tbl : List Nat) (x : List Nat) (j : Nat)
    (hj : 0x60000 ≤ j) :
    (addrPass base tbl x).getD j 0 = x.getD j 0 := by
  have aux : ∀ n, n ≤ 0x60000 →
      (iterN (fun i y => y.set i (y.getD (base + bitPermute tbl i) 0)) n x).getD j 0 =
        x.getD j 0 := by
    intro n
    induction n with
    | zero => intro _; rfl
    | succ n ih =>
      intro hn
      rw [iterN, getD_set_ne _ _ _ (by omega), ih (by omega)]
  exact aux 0x60000 (le_refl _)

theorem blockBuf_getD (bw start : Nat) (x : List Nat) (k : Nat) (hk : k < bw) :
    (blockBuf bw start x).getD k 0 = x.getD (start + k) 0 := by
  rw [blockBuf, List.getD_eq_getElem?_getD, List.getElem?_map, List.getElem?_range hk]
  rfl

theorem blockStep_getD_out (tbl : List Nat) (bw start : Nat) (x : List Nat) (j : Nat)
    (h : j < start ∨ start + bw ≤ j) :
    (blockStep tbl bw start x).getD j 0 = x.getD j 0 := by
  have aux : ∀ n, n ≤ bw →
      (iterN (fun k y => y.set (start + k) ((blockBuf bw start x).getD (bitPermute tbl k) 0)) n
        x).getD j 0 = x.getD j 0 := by
    intro n
    induction n with
    | zero => intro _; rfl
    | succ n ih =>
      intro hn
      rw [iterN, getD_set_ne _ _ _ (by omega), ih (by omega)]
  exact aux bw (le_refl _)

theorem blockStep_getD_in (tbl : List Nat) (bw start : Nat) (x : List Nat) (j : Nat)
    (hj : j < bw) (hperm : bitPermute tbl j < bw) (hlen : start + bw ≤ x.length) :
    (blockStep tbl bw start x).getD (start + j) 0 = x.getD (start + bitPermute tbl j) 0 := by
  have aux : ∀ n, n ≤ bw → ∀ j,
      (iterN (fun k y => y.set (start + k) ((blockBuf bw start x).getD (bitPermute tbl k) 0)) n
        x).getD (start + j) 0 =
        if j < n then (blockBuf bw start x).getD (bitPermute tbl j) 0
        else x.getD (start + j) 0 := by
    intro n
    induction n with
    | zero => intro _ j; simp [iterN]
    | succ n ih =>
      intro hn j
      have hlen2 :
          (iterN (fun k y => y.set (start + k) ((blockBuf bw start x).getD (bitPermute tbl k) 0))
            n x).length = x.length :=
        iterN_length (fun _ _ => List.length_set ..) _ x
      rw [iterN]
      by_cases hjn : j = n
      · subst hjn
        rw [getD_set_self _ _ _ _ (by rw [hlen2]; omega), if_pos (by omega)]
      · rw [getD_set_ne _ _ _ (by omega), ih (by omega) j]
        by_cases hc : j < n
        · rw [if_pos hc, if_pos (by omega)]
        · rw [if_neg hc, if_neg (by omega)]
  rw [blockStep, aux bw (le_refl _) j, if_pos hj, blockBuf_getD _ _ _ _ hperm]

theorem blockPass_getD_out (tbl : List Nat) (bw n : Nat) (x : List Nat) (j : Nat)
    (h : j < 0x80000 ∨ 0x80000 + n * bw ≤ j) :
    (blockPass tbl bw n x).getD j 0 = x.getD j 0 := by
  induction n generalizing x with
  | zero => rfl
  | succ n ih =>
    have hmul : (n + 1) * bw = n * bw + bw := by ring
    rw [blockPass, iterN, ← blockPass]
    have h1 : j < 0x80000 + n * bw ∨ (0x80000 + n * bw) + bw ≤ j := by
      rcases h with h | h
      · left; omega
      · right; omega
    rw [blockStep_getD_out _ _ _ _ _ h1]
    apply ih
    rcases h with h | h
    · left; exact h
    · right; omega

theorem blockPass_getD_first (tbl : List Nat) (bw n : Nat) (x : List Nat) (j : Nat)
    (hj : j < bw) (hperm : bitPermute tbl j < bw) (hn : 0 < n)
    (hlen : 0x80000 + bw ≤ x.length) :
    (blockPass tbl bw n x).getD (0x80000 + j) 0 =
      x.getD (0x80000 + bitPermute tbl j) 0 := by
  induction n with
  | zero => omega
  | succ n ih =>
    rw [blockPass, iterN, ← blockPass]
    rcases Nat.eq_zero_or_pos n with hz | hp
    · subst hz
      simpa using blockStep_getD_in tbl bw 0x80000 x j hj hperm hlen
    · have hmul : bw ≤ n * bw := Nat.le_mul_of_pos_left bw hp
      rw [blockStep_getD_out _ _ _ _ _ (by left; omega)]
      exact ih hp

/-! Composite facts about the full three-pass descramble. -/

theorem smaDescramble_lo (t : SmaTitle) (rom : List Nat) (i : Nat)
    (hb1 : 0x80000 ≤ t.addrBase)
    (hb2 : t.addrBase + 0x80000 ≤ 0x480000)
    (hperm : ∀ k, k < 0x60000 → bitPermute t.addrBits k < 0x80000)
    (hbf : t.blockFirst = true → 0x80000 + t.nblocks * t.blockWords ≤ t.addrBase)
    (hi : i < 0x60000) :
    (smaDescramble t rom).getD i 0 =
      bitPermute t.dataBits (rom.getD (t.addrBase + bitPermute t.addrBits i) 0) := by
  have hp := hperm i hi
  have hsrc1 : 0x80000 ≤ t.addrBase + bitPermute t.addrBits i := by omega
  have hsrc2 : t.addrBase + bitPermute t.addrBits i < 0x480000 := by omega
  rw [smaDescramble]
  by_cases hf : t.blockFirst
  · rw [if_pos hf, addrPass_getD _ _ _ _ (by omega) hi,
      blockPass_getD_out _ _ _ _ _ (by right; have := hbf hf; omega),
      dataPass_getD, if_pos ⟨hsrc1, hsrc2⟩]
  · rw [if_neg hf, blockPass_getD_out _ _ _ _ _ (by left; omega),
      addrPass_getD _ _ _ _ (by omega) hi,
      dataPass_getD, if_pos ⟨hsrc1, hsrc2⟩]

theorem smaDescramble_block0 (t : SmaTitle) (rom : List Nat) (j : Nat)
    (hj : j < t.blockWords) (hperm : bitPermute t.blockBits j < t.blockWords)
    (hn : 0 < t.nblocks) (hbw : t.blockWords ≤ 0x400000)
    (hlen : 0x480000 ≤ rom.length) :
    (smaDescramble t rom).getD (0x80000 + j) 0 =
      bitPermute t.dataBits (rom.getD (0x80000 + bitPermute t.blockBits j) 0) := by
  have hin1 : 0x80000 ≤ 0x80000 + bitPermute t.blockBits j := by omega
  have hin2 : 0x80000 + bitPermute t.blockBits j < 0x480000 := by omega
  rw [smaDescramble]
  by_cases hf : t.blockFirst
  · rw [if_pos hf, addrPass_getD_hi _ _ _ _ (by omega),
      blockPass_getD_first _ _ _ _ _ hj hperm hn (by rw [dataPass_length]; omega),
      dataPass_getD, if_pos ⟨hin1, hin2⟩]
  · rw [if_neg hf,
      blockPass_getD_first _ _ _ _ _ hj hperm hn
        (by rw [addrPass_length, dataPass_length]; omega),
      addrPass_getD_hi _ _ _ _ (by omega),
      dataPass_getD, if_pos ⟨hin1, hin2⟩]

/-- The per-title address tables all start `23, 22, 21, 20, 19`, so a source
offset computed from an index below `2^19` stays below `2^19`. -/
theorem addrBits_lt (pre post : List Nat) (k : Nat)
    (hpre : ∀ b ∈ pre, 19 ≤ b) (hlen : post.length = 19) (hk : k < 0x60000) :
    bitPermute (pre ++ post) k < 0x80000 := by
  have h := bitPermute_append_lt pre post k 19 hpre (by omega)
  rw [hlen] at h
  have he : (2 : Nat) ^ 19 = 0x80000 := by norm_num
  omega

/-- C3: for every SMA title strategy (garou, garouh, kof99, kof2000, mslug3,
mslug3a) the per-word data-line bit permutation is applied over the whole
large word range before the other two passes read any word: every word the
address-descramble pass deposits in the low prefix, and every word the block
shuffle deposits in the first block, is the data-line-permuted image of the
original word at its source index. -/
theorem sma_pass1_first (t : SmaTitle) (ht : t ∈ smaTitles) (rom : List Nat)
    (hlen : 0x480000 ≤ rom.length) :
    (∀ i, i < 0xc0000 / 2 →
      (smaDescramble t rom).getD i 0 =
        bitPermute t.dataBits (rom.getD (t.addrBase + bitPermute t.addrBits i) 0)) ∧
    (∀ j, j < t.blockWords →
      (smaDescramble t rom).getD (0x80000 + j) 0 =
        bitPermute t.dataBits (rom.getD (0x80000 + bitPermute t.blockBits j) 0)) := by
  have hd : 0xc0000 / 2 = 0x60000 := by norm_num
  have ht2 : t = garouT ∨ t = garouhT ∨ t = kof99T ∨ t = kof2000T ∨ t = mslug3T ∨
      t = mslug3aT := by simpa [smaTitles] using ht
  rcases ht2 with rfl | rfl | rfl | rfl | rfl | rfl
  · exact ⟨fun i hi => smaDescramble_lo _ rom i (by decide) (by decide)
      (fun k hk => addrBits_lt [23, 22, 21, 20, 19]
        [18, 4, 5, 16, 14, 7, 9, 6, 13, 17, 15, 3, 1, 2, 12, 11, 8, 10, 0] k
        (by decide) (by decide) hk) (by decide) (by omega),
      fun j hj => smaDescramble_block0 _ rom j hj
        (bitPermute_append_lt [23, 22, 21, 20, 19, 18, 17, 16, 15, 14]
          [9, 4, 8, 3, 13, 6, 2, 7, 0, 12, 1, 11, 10, 5] j 14 (by decide) hj)
        (by decide) (by decide) hlen⟩
  · exact ⟨fun i hi => smaDescramble_lo _ rom i (by decide) (by decide)
      (fun k hk => addrBits_lt [23, 22, 21, 20, 19]
        [18, 5, 16, 11, 2, 6, 7, 17, 3, 12, 8, 14, 4, 0, 9, 1, 10, 15, 13] k
        (by decide) (by decide) hk) (by decide) (by omega),
      fun j hj => smaDescramble_block0 _ rom j hj
        (bitPermute_append_lt [23, 22, 21, 20, 19, 18, 17, 16, 15, 14]
          [12, 8, 1, 7, 11, 3, 13, 10, 6, 9, 5, 4, 0, 2] j 14 (by decide) hj)
        (by decide) (by decide) hlen⟩
  · exact ⟨fun i hi => smaDescramble_lo _ rom i (by decide) (by decide)
      (fun k hk => addrBits_lt [23, 22, 21, 20, 19]
        [18, 11, 6, 14, 17, 16, 5, 8, 10, 12, 0, 4, 3, 2, 7, 9, 15, 13, 1] k
        (by decide) (by decide) hk) (by decide) (by omega),
      fun j hj => smaDescramble_block0 _ rom j hj
        (bitPermute_append_lt [23, 22, 21, 20, 19, 18, 17, 16, 15, 14, 13, 12, 11, 10]
          [6, 2, 4, 9, 8, 3, 1, 7, 0, 5] j 10 (by decide) hj)
        (by decide) (by decide) hlen⟩
  · exact ⟨fun i hi => smaDescramble_lo _ rom i (by decide) (by decide)
      (fun k hk => addrBits_lt [23, 22, 21, 20, 19]
        [18, 8, 4, 15, 13, 3, 14, 16, 2, 6, 17, 7, 12, 10, 0, 5, 11, 1, 9] k
        (by decide) (by decide) hk) (by decide) (by omega),
      fun j hj => smaDescramble_block0 _ rom j hj
        (bitPermute_append_lt [23, 22, 21, 20, 19, 18, 17, 16, 15, 14, 13, 12, 11, 10]
          [4, 1, 3, 8, 6, 2, 7, 0, 9, 5] j 10 (by decide) hj)
        (by decide) (by decide) hlen⟩
  · exact ⟨fun i hi => smaDescramble_lo _ rom i (by decide) (by decide)
      (fun k hk => addrBits_lt [23, 22, 21, 20, 19]
        [18, 15, 2, 1, 13, 3, 0, 9, 6, 16, 4, 11, 5, 7, 12, 17, 14, 10, 8] k
        (by decide) (by decide) hk) (by decide) (by omega),
      fun j hj => smaDescramble_block0 _ rom j hj
        (bitPermute_append_lt [23, 22, 21, 20, 19, 18, 17, 16, 15]
          [2, 11, 0, 14, 6, 4, 13, 8, 9, 3, 10, 7, 5, 12, 1] j 15 (by decide) hj)
        (by decide) (by decide) hlen⟩
  · exact ⟨fun i hi => smaDescramble_lo _ rom i (by decide) (by decide)
      (fun k hk => addrBits_lt [23, 22, 21, 20, 19]
        [18, 1, 16, 14, 7, 17, 5, 8, 4, 15, 6, 3, 2, 0, 13, 10, 12, 9, 11] k
        (by decide) (by decide) hk) (by decide) (by omega),
      fun j hj => smaDescramble_block0 _ rom j hj
        (bitPermute_append_lt [23, 22, 21, 20, 19, 18, 17, 16, 15]
          [12, 0, 11, 3, 4, 13, 6, 8, 14, 7, 5, 2, 10, 9, 1] j 15 (by decide) hj)
        (by decide) (by decide) hlen⟩

/-- Witness for `sma_pass1_first` at the garou tables, index 0 of both the
prefix and the first block, on an all-zero word array of the minimum safe
length. -/
theorem sma_pass1_first_witness :
    (smaDescramble garouT (List.replicate 0x480000 0)).getD 0 0 =
      bitPermute garouT.dataBits
        ((List.replicate 0x480000 0).getD (garouT.addrBase + bitPermute garouT.addrBits 0) 0) ∧
    (smaDescramble garouT (List.replicate 0x480000 0)).getD (0x80000 + 0) 0 =
      bitPermute garouT.dataBits
        ((List.replicate 0x480000 0).getD (0x80000 + bitPermute garouT.blockBits 0) 0) := by
  have h := sma_pass1_first garouT (by decide) (List.replicate 0x480000 0)
    (by rw [List.length_replicate])
  exact ⟨h.1 0 (by decide), h.2 0 (by decide)⟩

/-- C4: in every SMA title strategy's address-descramble pass, destination
word `i` (for `i` up to `0xC0000/2 - 1`) receives the word previously at
source index `addrBase + BitPermute(i, addrBits)`. -/
theorem sma_addr_descramble_spec (t : SmaTitle) (ht : t ∈ smaTitles) (x : List Nat)
    (i : Nat) (hi : i < 0xc0000 / 2) :
    (addrPass t.addrBase t.addrBits x).getD i 0 =
      x.getD (t.addrBase + bitPermute t.addrBits i) 0 := by
  have hd : 0xc0000 / 2 = 0x60000 := by norm_num
  have hi2 : i < 0x60000 := by omega
  have ht2 : t = garouT ∨ t = garouhT ∨ t = kof99T ∨ t = kof2000T ∨ t = mslug3T ∨
      t = mslug3aT := by simpa [smaTitles] using ht
  have hb : 0x60000 ≤ t.addrBase := by
    rcases ht2 with rfl | rfl | rfl | rfl | rfl | rfl <;> decide
  exact addrPass_getD _ _ _ _ hb hi2

/-- Witness for `sma_addr_descramble_spec`: garou tables, destination index 0
on a two-word array. -/
theorem sma_addr_descramble_spec_witness :
    (addrPass garouT.addrBase garouT.addrBits [5, 6]).getD 0 0 =
      [5, 6].getD (garouT.addrBase + bitPermute garouT.addrBits 0) 0 :=
  sma_addr_descramble_spec garouT (by decide) [5, 6] 0 (by decide)

/-! Word/byte packing round trips. -/

theorem getD_cons_cons (a b : Nat) (l : List Nat) (n d : Nat) :
    (a :: b :: l).getD (n + 2) d = l.getD n d := by
  simp [List.getD_cons_succ]

theorem u2b_cons (w : Nat) (ws : List Nat) :
    uint16SliceToBytes (w :: ws) = w % 256 :: w / 256 % 256 :: uint16SliceToBytes ws := rfl

theorem b2u_cons (x y : Nat) (rest : List Nat) :
    bytesToUint16 (x :: y :: rest) = (x + 256 * y) :: bytesToUint16 rest := by
  have hlen : (x :: y :: rest).length / 2 = rest.length / 2 + 1 := by
    simp only [List.length_cons]
    omega
  rw [bytesToUint16, hlen, List.range_succ_eq_map, List.map_cons, List.map_map]
  congr 1

/-- C7: unpacking an even-length byte sequence into little-endian 16-bit
words and repacking with `uint16SliceToBytes` restores it, and conversely
packing any sequence of 16-bit values and unpacking restores it. -/
theorem uint16_bytes_roundtrip :
    (∀ b : List Nat, b.length % 2 = 0 → (∀ x ∈ b, x < 256) →
      uint16SliceToBytes (bytesToUint16 b) = b) ∧
    (∀ ws : List Nat, (∀ w ∈ ws, w < 65536) →
      bytesToUint16 (uint16SliceToBytes ws) = ws) := by
  constructor
  · have aux : ∀ n (b : List Nat), b.length = 2 * n → (∀ x ∈ b, x < 256) →
        uint16SliceToBytes (bytesToUint16 b) = b := by
      intro n
      induction n with
      | zero =>
        intro b hb _
        have hnil : b = [] := List.eq_nil_of_length_eq_zero (by omega)
        subst hnil
        rfl
      | succ n ih =>
        intro b hb hlt
        match b with
        | [] => simp at hb
        | [x] => simp at hb; omega
        | x :: y :: rest =>
          have hx : x < 256 := hlt x (by simp)
          have hy : y < 256 := hlt y (by simp)
          have e1 : (x + 256 * y) % 256 = x := by omega
          have e2 : (x + 256 * y) / 256 % 256 = y := by omega
          rw [b2u_cons, u2b_cons, e1, e2,
            ih rest (by simp only [List.length_cons] at hb; omega)
              (fun z hz => hlt z (by simp [hz]))]
    intro b hb hlt
    exact aux (b.length / 2) b (by omega) hlt
  · intro ws
    induction ws with
    | nil => intro _; rfl
    | cons w t ih =>
      intro hlt
      have hw : w < 65536 := hlt w (by simp)
      have e : w % 256 + 256 * (w / 256 % 256) = w := by omega
      rw [u2b_cons, b2u_cons, e, ih (fun z hz => hlt z (by simp [hz]))]

/-- Witness for `uint16_bytes_roundtrip` on the byte pair `[1, 2]` and the
word `258`. -/
theorem uint16_bytes_roundtrip_witness :
    uint16SliceToBytes (bytesToUint16 [1, 2]) = [1, 2] ∧
    bytesToUint16 (uint16SliceToBytes [258]) = [258] :=
  ⟨uint16_bytes_roundtrip.1 [1, 2] (by decide) (by decide),
   uint16_bytes_roundtrip.2 [258] (by decide)⟩

/-! The closed form of `commonPReader` on well-formed inputs. -/

theorem commonPReader_eq (a : mameArea) (readers : List (List Nat))
    (re : Option (String → Bool)) (r0 : mameROM) (s0 : List Nat)
    (rest : List (mameROM × List Nat))
    (hcount : a.rom.length ≤ readers.length)
    (hsplit : (splitP a readers re).2 = (r0, s0) :: rest)
    (h2m : r0.size = twoMB → oneMB ≤ s0.length)
    (hL : (patchBytes a readers re).length ≤
      s0.length + ((rest.map (fun p => p.2)).flatten).length) :
    commonPReader a readers re = .ok (patchBytes a readers re ++
      (((if r0.size = twoMB then s0.drop oneMB ++ s0.take oneMB else s0) ++
        (rest.map (fun p => p.2)).flatten).drop (patchBytes a readers re).length)) := by
  rw [commonPReader, if_neg (by omega), hsplit]
  dsimp only
  by_cases h2 : r0.size = twoMB
  · have hm := h2m h2
    have hlen : (s0.drop oneMB ++ s0.take oneMB).length = s0.length := by
      rw [List.length_append, List.length_drop, List.length_take]
      omega
    rw [if_pos h2, if_neg (by omega)]
    dsimp only
    rw [if_neg (by rw [List.length_append, hlen]; omega), if_pos h2]
  · rw [if_neg h2]
    dsimp only
    rw [if_neg (by rw [List.length_append]; omega), if_neg h2]

theorem correctedBody_eq (a : mameArea) (readers : List (List Nat))
    (re : Option (String → Bool)) (r0 : mameROM) (s0 : List Nat)
    (rest : List (mameROM × List Nat))
    (hsplit : (splitP a readers re).2 = (r0, s0) :: rest) :
    correctedBody a readers re =
      (if r0.size = twoMB then s0.drop oneMB ++ s0.take oneMB else s0) ++
        (rest.map (fun p => p.2)).flatten := by
  rw [correctedBody, hsplit]

/-- C1 (amended): with matching streams, at least one body chip, and patch
bytes no longer than the corrected body, `commonPReader` returns the patch
bytes followed by the corrected body concatenation with its first L bytes
dropped; with no matching patch chips the output is exactly the corrected
body concatenation. -/
theorem commonPReader_patch_overlay (a : mameArea) (readers : List (List Nat))
    (re : Option (String → Bool))
    (hcount : readers.length = a.rom.length)
    (hsizes : ∀ p ∈ a.rom.zip readers, p.2.length = p.1.size)
    (hbody : (splitP a readers re).2 ≠ [])
    (hL : (patchBytes a readers re).length ≤ (correctedBody a readers re).length) :
    commonPReader a readers re = .ok (patchBytes a readers re ++
      (correctedBody a readers re).drop (patchBytes a readers re).length) ∧
    ((splitP a readers re).1 = [] →
      commonPReader a readers re = .ok (correctedBody a readers re)) := by
  obtain ⟨r0, s0, rest, hsplit⟩ :
      ∃ r0 s0 rest, (splitP a readers re).2 = (r0, s0) :: rest := by
    rcases h : (splitP a readers re).2 with _ | ⟨⟨r0, s0⟩, rest⟩
    · exact absurd h hbody
    · exact ⟨r0, s0, rest, rfl⟩
  have hmem2 : (r0, s0) ∈ (a.rom.zip readers).filter (fun p => !matchQ re p.1.filename) := by
    have he : (splitP a readers re).2 =
        (a.rom.zip readers).filter (fun p => !matchQ re p.1.filename) := rfl
    rw [← he, hsplit]
    exact List.mem_cons_self _ _
  have hs0len : s0.length = r0.size := hsizes _ (List.mem_of_mem_filter hmem2)
  have h2m : r0.size = twoMB → oneMB ≤ s0.length := by
    intro h2
    rw [hs0len, h2]
    decide
  have hcb : (correctedBody a readers re).length =
      s0.length + ((rest.map (fun p => p.2)).flatten).length := by
    rw [correctedBody_eq a readers re r0 s0 rest hsplit, List.length_append]
    by_cases h2 : r0.size = twoMB
    · rw [if_pos h2, List.length_append, List.length_drop, List.length_take]
      omega
    · rw [if_neg h2]
  have hmain : commonPReader a readers re = .ok (patchBytes a readers re ++
      (correctedBody a readers re).drop (patchBytes a readers re).length) := by
    rw [correctedBody_eq a readers re r0 s0 rest hsplit]
    exact commonPReader_eq a readers re r0 s0 rest (by omega) hsplit h2m (by omega)
  refine ⟨hmain, fun hp => ?_⟩
  have hpb : patchBytes a readers re = [] := by
    rw [patchBytes, hp]
    rfl
  rw [hmain, hpb]
  simp

/-- Witness for `commonPReader_patch_overlay`: one patch chip (`p2.ep`, one
byte) and one body chip (`p1.p1`, two bytes). -/
theorem commonPReader_patch_overlay_witness :
    commonPReader ⟨8, [⟨"p1.p1", 2, []⟩, ⟨"p2.ep", 1, []⟩]⟩ [[1, 2], [9]] (some epMatch) =
      .ok (patchBytes ⟨8, [⟨"p1.p1", 2, []⟩, ⟨"p2.ep", 1, []⟩]⟩ [[1, 2], [9]] (some epMatch) ++
        (correctedBody ⟨8, [⟨"p1.p1", 2, []⟩, ⟨"p2.ep", 1, []⟩]⟩ [[1, 2], [9]]
            (some epMatch)).drop
          (patchBytes ⟨8, [⟨"p1.p1", 2, []⟩, ⟨"p2.ep", 1, []⟩]⟩ [[1, 2], [9]]
            (some epMatch)).length) ∧
    ((splitP ⟨8, [⟨"p1.p1", 2, []⟩, ⟨"p2.ep", 1, []⟩]⟩ [[1, 2], [9]] (some epMatch)).1 = [] →
      commonPReader ⟨8, [⟨"p1.p1", 2, []⟩, ⟨"p2.ep", 1, []⟩]⟩ [[1, 2], [9]] (some epMatch) =
        .ok (correctedBody ⟨8, [⟨"p1.p1", 2, []⟩, ⟨"p2.ep", 1, []⟩]⟩ [[1, 2], [9]]
          (some epMatch))) :=
  commonPReader_patch_overlay _ _ _ (by decide)
    (by decide) (by decide) (by decide)

/-- Counterexample to C1 as stated: with matching streams, an all-patch chip
list makes `commonPReader` panic at `roms[0]` instead of returning the patch
bytes, and a patch longer than the body makes `io.CopyN` return an error
instead of the overlay. -/
theorem commonPReader_all_patch_crash :
    commonPReader ⟨4, [⟨"p1.ep", 4, []⟩]⟩ [[170, 170, 170, 170]] (some epMatch) =
      .error .crash ∧
    commonPReader ⟨6, [⟨"p1.ep", 4, []⟩, ⟨"p2.p1", 2, []⟩]⟩
      [[170, 170, 170, 170], [1, 2]] (some epMatch) = .error .readErr := by
  constructor <;> rfl

/-- C2: on a program area with matching streams (first body stream at least
1 MiB long when its chip declares 2 MiB, patch not longer than the body),
the first body stream is half-swapped exactly when its chip's declared size
is 2 MiB, and is passed through unchanged otherwise; later body streams are
concatenated unchanged in both cases. -/
theorem commonPReader_twoMB_swap_iff (a : mameArea) (readers : List (List Nat))
    (re : Option (String → Bool)) (r0 : mameROM) (s0 : List Nat)
    (rest : List (mameROM × List Nat))
    (hcount : readers.length = a.rom.length)
    (hsplit : (splitP a readers re).2 = (r0, s0) :: rest)
    (hs0 : r0.size = twoMB → oneMB ≤ s0.length)
    (hL : (patchBytes a readers re).length ≤
      s0.length + ((rest.map (fun p => p.2)).flatten).length) :
    (r0.size = twoMB →
      commonPReader a readers re = .ok (patchBytes a readers re ++
        ((s0.drop oneMB ++ s0.take oneMB) ++ (rest.map (fun p => p.2)).flatten).drop
          (patchBytes a readers re).length)) ∧
    (r0.size ≠ twoMB →
      commonPReader a readers re = .ok (patchBytes a readers re ++
        (s0 ++ (rest.map (fun p => p.2)).flatten).drop
          (patchBytes a readers re).length)) := by
  have h := commonPReader_eq a readers re r0 s0 rest (by omega) hsplit hs0 hL
  constructor
  · intro h2
    rwa [if_pos h2] at h
  · intro h2
    rwa [if_neg h2] at h

/-- Witness for `commonPReader_twoMB_swap_iff`: a single one-byte body chip
(declared size 1, not 2 MiB) and no patch chips. -/
theorem commonPReader_twoMB_swap_iff_witness :
    ((⟨"x.p1", 1, []⟩ : mameROM).size = twoMB →
      commonPReader ⟨1, [⟨"x.p1", 1, []⟩]⟩ [[7]] none =
        .ok (patchBytes ⟨1, [⟨"x.p1", 1, []⟩]⟩ [[7]] none ++
          (([7].drop oneMB ++ [7].take oneMB) ++ (([] : List (mameROM × List Nat)).map
            (fun (p : mameROM × List Nat) => p.2)).flatten).drop
            (patchBytes ⟨1, [⟨"x.p1", 1, []⟩]⟩ [[7]] none).length)) ∧
    ((⟨"x.p1", 1, []⟩ : mameROM).size ≠ twoMB →
      commonPReader ⟨1, [⟨"x.p1", 1, []⟩]⟩ [[7]] none =
        .ok (patchBytes ⟨1, [⟨"x.p1", 1, []⟩]⟩ [[7]] none ++
          ([7] ++ (([] : List (mameROM × List Nat)).map
            (fun (p : mameROM × List Nat) => p.2)).flatten).drop
            (patchBytes ⟨1, [⟨"x.p1", 1, []⟩]⟩ [[7]] none).length)) :=
  commonPReader_twoMB_swap_iff ⟨1, [⟨"x.p1", 1, []⟩]⟩ [[7]] none ⟨"x.p1", 1, []⟩ [7] []
    (by decide) (by decide) (by decide) (by decide)

/-- C8 (amended): no reader validates stream counts.  A shortfall of
program-area streams is an index-out-of-range panic, not a reported layout
error, and the padded-concatenation reader never fails at all, silently
consuming whatever streams it is given. -/
theorem layout_mismatch_behaviour :
    (∀ (a : mameArea) (readers : List (List Nat)) (re : Option (String → Bool)),
      readers.length < a.rom.length → commonPReader a readers re = .error .crash) ∧
    (∀ (a : mameArea) (readers : List (List Nat)) (e : GoFailure),
      commonPaddedReader a readers ≠ .error e) := by
  constructor
  · intro a readers re h
    rw [commonPReader, if_pos h]
  · intro a readers e h
    rw [commonPaddedReader] at h
    exact Except.noConfusion h

/-- Witness for `layout_mismatch_behaviour`: a one-chip program area with no
streams, and a padded area given one stream. -/
theorem layout_mismatch_behaviour_witness :
    commonPReader ⟨4, [⟨"a.p1", 4, []⟩]⟩ [] (some epMatch) = .error .crash ∧
    commonPaddedReader ⟨4, [⟨"a.p1", 4, []⟩]⟩ [[1]] ≠ .error .crash :=
  ⟨layout_mismatch_behaviour.1 ⟨4, [⟨"a.p1", 4, []⟩]⟩ [] (some epMatch) (by decide),
   layout_mismatch_behaviour.2 ⟨4, [⟨"a.p1", 4, []⟩]⟩ [[1]] .crash⟩

/-- A concrete game for the layout-mismatch counterexample: the sound area
declares two chips. -/
def cexGame : mameGame :=
  ⟨"", fun i => [⟨8, [⟨"p1.p1", 1, []⟩]⟩, ⟨0, []⟩,
    ⟨2, [⟨"m1.m1", 1, []⟩, ⟨"m2.m2", 1, []⟩]⟩, ⟨0, []⟩, ⟨0, []⟩,
    ⟨4, [⟨"c1.c1", 1, []⟩, ⟨"c2.c2", 1, []⟩]⟩].getD i.val ⟨0, []⟩⟩

/-- Streams for `cexGame` supplying only one stream for the two-chip sound
area. -/
def cexReaders : Fin 6 → List (List Nat) :=
  fun i => [[[9]], [], [[7]], [], [], [[1], [2]]].getD i.val []

/-- Counterexample to C8 as stated: the `common` strategy completes with an
`ok` image although the sound area declares two chips and receives one
stream — no layout error is reported and no processing is aborted. -/
theorem commonRead_mismatch_no_error :
    (cexGame.area 2).rom.length = 2 ∧ (cexReaders 2).length = 1 ∧
    commonRead cexGame cexReaders = .ok (mkImage [9] [] [7] [] [] [1, 2]) := by
  refine ⟨rfl, rfl, ?_⟩
  rfl

/-- Length of the unpacked word array. -/
theorem b2u_length (b : List Nat) : (bytesToUint16 b).length = b.length / 2 := by
  rw [bytesToUint16, List.length_map, List.length_range]

/-- C9 (amended): for every SMA title, a program-ROM byte stream too short
for the passes' fixed access range (fewer than `0x900000` bytes including the
`0xC0000` zero prefix) makes the engine fail with the Go index-out-of-range
panic, not with a reported error value. -/
theorem sma_short_input_crashes (t : SmaTitle) (ht : t ∈ smaTitles)
    (streams : List (List Nat))
    (hshort : streams.flatten.length + 0xc0000 < 0x900000) :
    smaPRead t streams = .error .crash := by
  have hx : (List.replicate 0xc0000 (0 : Nat) ++ streams.flatten).length =
      0xc0000 + streams.flatten.length := by
    rw [List.length_append, List.length_replicate]
  rw [smaPRead, if_neg (by rw [b2u_length, hx]; omega)]

/-- Witness for `sma_short_input_crashes`: the garou strategy on a single
one-byte stream. -/
theorem sma_short_input_crashes_witness : smaPRead garouT [[1]] = .error .crash :=
  sma_short_input_crashes garouT (by decide) [[1]] (by decide)

/-- Counterexample to C9 as stated: the garou SMA engine on empty program
streams produces the panic failure (`crash`), which is not a reported error
value (`readErr`). -/
theorem sma_truncated_crash :
    smaPRead garouT [] = .error .crash ∧ GoFailure.crash ≠ GoFailure.readErr := by
  constructor
  · have hx : (List.replicate 0xc0000 (0 : Nat) ++ ([] : List (List Nat)).flatten).length =
        0xc0000 := by
      rw [List.length_append, List.length_replicate]
      rfl
    rw [smaPRead, if_neg (by rw [b2u_length, hx]; omega)]
  · decide

/-- C10 (amended): an empty chip list with an empty stream list is fine for
the padded-concatenation and graphics readers (empty output, no failure),
but the program-area reader `commonPReader` panics on it: the Go code
unconditionally reads `roms[0]`. -/
theorem empty_area_population (a : mameArea) :
    commonPaddedReader a [] = .ok [] ∧
    commonCReader a [] = .ok [] ∧
    (∀ (sz : Nat) (re : Option (String → Bool)),
      commonPReader ⟨sz, []⟩ [] re = .error .crash) := by
  refine ⟨rfl, rfl, fun sz re => ?_⟩
  rfl

/-- Counterexample to C10 as stated: the program area with an empty chip list
and empty stream list makes `commonPReader` panic rather than complete. -/
theorem commonPReader_empty_area_crash :
    commonPReader ⟨0x100000, []⟩ [] (some epMatch) = .error .crash ∧
    commonPReader ⟨0x100000, []⟩ [] (some epMatch) ≠ .ok [] := by
  constructor
  · rfl
  · decide

/-! The graphics-area reader: closed form and the padding width. -/

/-- The pairwise unit-1 interleaves of a stream list, two streams at a time. -/
def pairwiseInter : List (List Nat) → List (List Nat)
  | x :: y :: rest => interleaveROM 1 [x, y] :: pairwiseInter rest
  | _ => []

theorem cPairs_even : ∀ rs : List (List Nat), rs.length % 2 = 0 →
    cPairs rs = some (pairwiseInter rs) := by
  have aux : ∀ n rs, rs.length ≤ n → rs.length % 2 = 0 →
      cPairs rs = some (pairwiseInter rs) := by
    intro n
    induction n with
    | zero =>
      intro rs hlen _
      match rs with
      | [] => rfl
      | _ :: _ => simp at hlen
    | succ n ih =>
      intro rs hlen hpar
      match rs with
      | [] => rfl
      | [x] => simp at hpar
      | x :: y :: rest =>
        have hr := ih rest (by simp only [List.length_cons] at hlen; omega)
          (by simp only [List.length_cons] at hpar ⊢; omega)
        rw [cPairs, hr]
        rfl
  intro rs h
  exact aux rs.length rs (le_refl _) h

/-- C6 (amended): with an even stream count, `commonCReader` concatenates
the pairwise unit-1 interleaves, zero-padding every pair's result except the
last to twice the area pad size (`padSize()*2`), not to the pad size itself. -/
theorem commonCReader_pads_double (a : mameArea) (rs : List (List Nat))
    (heven : rs.length % 2 = 0) :
    commonCReader a rs =
      .ok ((padAllButLast (a.padSize * 2) (pairwiseInter rs)).flatten) := by
  rw [commonCReader, cPairs_even rs heven]

/-- Witness for `commonCReader_pads_double`: a two-chip area. -/
theorem commonCReader_pads_double_witness :
    commonCReader ⟨2, [⟨"c1", 1, []⟩, ⟨"c2", 1, []⟩]⟩ [[1], [2]] =
      .ok ((padAllButLast ((⟨2, [⟨"c1", 1, []⟩, ⟨"c2", 1, []⟩]⟩ : mameArea).padSize * 2)
        (pairwiseInter [[1], [2]])).flatten) :=
  commonCReader_pads_double ⟨2, [⟨"c1", 1, []⟩, ⟨"c2", 1, []⟩]⟩ [[1], [2]] (by decide)

/-- A four-chip graphics area whose pad size is 2. -/
def c6Area : mameArea := ⟨8, [⟨"c1", 1, []⟩, ⟨"c2", 1, []⟩, ⟨"c3", 2, []⟩, ⟨"c4", 2, []⟩]⟩

/-- Counterexample to C6 as stated: the area pad size is 2, but the first
pair's interleave is padded to 4 bytes, so the output is not the one the
claim (padding to the pad size) predicts. -/
theorem commonCReader_pad_counterexample :
    c6Area.padSize = 2 ∧
    commonCReader c6Area [[10], [11], [12, 13], [14, 15]] =
      .ok [10, 11, 0, 0, 12, 14, 13, 15] ∧
    commonCReader c6Area [[10], [11], [12, 13], [14, 15]] ≠
      .ok [10, 11, 12, 14, 13, 15] := by
  refine ⟨rfl, rfl, by decide⟩

/-! The fix area is always derived from the graphics area. -/

theorem ebind_err {α β : Type} (e : GoFailure) (f : α → Except GoFailure β) :
    (Except.error e >>= f : Except GoFailure β) = Except.error e := rfl

theorem ebind_val {α β : Type} (x : α) (f : α → Except GoFailure β) :
    (Except.ok x >>= f : Except GoFailure β) = f x := rfl

/-- C5: under the CMC42 and CMC50 family readers and all six SMA+CMC title
strategies, the output is unchanged when only the S-area streams change (the
S streams are never read), and on success the S output is exactly the
fix-plane derivation applied to the C output with the S area's declared size
as the length argument. -/
theorem cmc_sfix_derived (gfx sfix : List Nat → Nat → List Nat)
    (m1d : List Nat → List Nat) (m1o : Option (List Nat → List Nat)) (xor : Nat)
    (g : mameGame) (r r2 : Fin 6 → List (List Nat))
    (hS : ∀ i : Fin 6, i ≠ 1 → r i = r2 i) :
    (commonCMC42Reader gfx sfix xor g r = commonCMC42Reader gfx sfix xor g r2 ∧
      ∀ img, commonCMC42Reader gfx sfix xor g r = .ok img →
        img 1 = sfix (img 5) (g.area 1).size) ∧
    (commonCMC50Reader gfx sfix m1d xor g r = commonCMC50Reader gfx sfix m1d xor g r2 ∧
      ∀ img, commonCMC50Reader gfx sfix m1d xor g r = .ok img →
        img 1 = sfix (img 5) (g.area 1).size) ∧
    (∀ t ∈ smaTitles,
      smaCmcRead t gfx sfix m1o xor g r = smaCmcRead t gfx sfix m1o xor g r2 ∧
      ∀ img, smaCmcRead t gfx sfix m1o xor g r = .ok img →
        img 1 = sfix (img 5) (g.area 1).size) := by
  have h0 := hS 0 (by decide)
  have h2 := hS 2 (by decide)
  have h3 := hS 3 (by decide)
  have h4 := hS 4 (by decide)
  have h5 := hS 5 (by decide)
  refine ⟨⟨?_, ?_⟩, ⟨?_, ?_⟩, fun t _ => ⟨?_, ?_⟩⟩
  · simp only [commonCMC42Reader, h0, h2, h3, h4, h5]
  · intro img
    simp only [commonCMC42Reader]
    cases hp : commonPReader (g.area 0) (r 0) (some epMatch) with
    | error e => rw [ebind_err]; exact fun h => Except.noConfusion h
    | ok p =>
      rw [ebind_val]
      cases hm : commonPaddedReader (g.area 2) (r 2) with
      | error e => rw [ebind_err]; exact fun h => Except.noConfusion h
      | ok m =>
        rw [ebind_val]
        cases hv1 : commonPaddedReader (g.area 3) (r 3) with
        | error e => rw [ebind_err]; exact fun h => Except.noConfusion h
        | ok v1 =>
          rw [ebind_val]
          cases hv2 : commonPaddedReader (g.area 4) (r 4) with
          | error e => rw [ebind_err]; exact fun h => Except.noConfusion h
          | ok v2 =>
            rw [ebind_val]
            cases hc : commonCReader (g.area 5) (r 5) with
            | error e => rw [ebind_err]; exact fun h => Except.noConfusion h
            | ok cb =>
              rw [ebind_val]
              intro h
              rw [← Except.ok.inj h]
              rfl
  · simp only [commonCMC50Reader, h0, h2, h3, h4, h5]
  · intro img
    simp only [commonCMC50Reader]
    cases hp : commonPReader (g.area 0) (r 0) (some epMatch) with
    | error e => rw [ebind_err]; exact fun h => Except.noConfusion h
    | ok p =>
      rw [ebind_val]
      cases hm : commonPaddedReader (g.area 2) (r 2) with
      | error e => rw [ebind_err]; exact fun h => Except.noConfusion h
      | ok m =>
        rw [ebind_val]
        cases hv1 : commonPaddedReader (g.area 3) (r 3) with
        | error e => rw [ebind_err]; exact fun h => Except.noConfusion h
        | ok v1 =>
          rw [ebind_val]
          cases hv2 : commonPaddedReader (g.area 4) (r 4) with
          | error e => rw [ebind_err]; exact fun h => Except.noConfusion h
          | ok v2 =>
            rw [ebind_val]
            cases hc : commonCReader (g.area 5) (r 5) with
            | error e => rw [ebind_err]; exact fun h => Except.noConfusion h
            | ok cb =>
              rw [ebind_val]
              intro h
              rw [← Except.ok.inj h]
              rfl
  · simp only [smaCmcRead, h0, h2, h3, h4, h5]
  · intro img
    simp only [smaCmcRead]
    cases hp : smaPRead t (r 0) with
    | error e => rw [ebind_err]; exact fun h => Except.noConfusion h
    | ok p =>
      rw [ebind_val]
      cases hm : commonPaddedReader (g.area 2) (r 2) with
      | error e => rw [ebind_err]; exact fun h => Except.noConfusion h
      | ok m =>
        rw [ebind_val]
        cases hv1 : commonPaddedReader (g.area 3) (r 3) with
        | error e => rw [ebind_err]; exact fun h => Except.noConfusion h
        | ok v1 =>
          rw [ebind_val]
          cases hv2 : commonPaddedReader (g.area 4) (r 4) with
          | error e => rw [ebind_err]; exact fun h => Except.noConfusion h
          | ok v2 =>
            rw [ebind_val]
            cases hc : commonCReader (g.area 5) (r 5) with
            | error e => rw [ebind_err]; exact fun h => Except.noConfusion h
            | ok cb =>
              rw [ebind_val]
              intro h
              rw [← Except.ok.inj h]
              rfl

/-- Identity stand-in for the graphics decrypt collaborator. -/
def cmcGfx : List Nat → Nat → List Nat := fun b _ => b

/-- Truncating stand-in for the fix-plane derivation collaborator. -/
def cmcSfix : List Nat → Nat → List Nat := fun c n => c.take n

/-- Identity stand-in for the sound decrypt collaborator. -/
def cmcM1 : List Nat → List Nat := fun m => m

/-- A small game layout used by the C5 witness: the S area declares size 1
and no chips. -/
def cmcGame : mameGame :=
  ⟨"", fun i => [⟨1, [⟨"p.p1", 1, []⟩]⟩, ⟨1, []⟩, ⟨0, []⟩, ⟨0, []⟩, ⟨0, []⟩,
    ⟨2, [⟨"c1", 1, []⟩, ⟨"c2", 1, []⟩]⟩].getD i.val ⟨0, []⟩⟩

/-- Streams for `cmcGame` carrying a spurious S-area stream `[5]`. -/
def cmcR1 : Fin 6 → List (List Nat) :=
  fun i => [[[9]], [[5]], [], [], [], [[1], [2]]].getD i.val []

/-- The same streams with the S-area stream changed to `[6]`. -/
def cmcR2 : Fin 6 → List (List Nat) :=
  fun i => [[[9]], [[6]], [], [], [], [[1], [2]]].getD i.val []

/-- The image `commonCMC42Reader` produces for `cmcGame` and `cmcR1` with the
stand-in collaborators. -/
def cmcImg : Fin 6 → List Nat := mkImage [9] [1] [] [] [] [1, 2]

/-- Witness for `cmc_sfix_derived`: concrete game, streams differing only at
S, and concrete collaborators; the produced image has S equal to the
fix-plane derivation of C. -/
theorem cmc_sfix_derived_witness :
    commonCMC42Reader cmcGfx cmcSfix 0 cmcGame cmcR1 =
      commonCMC42Reader cmcGfx cmcSfix 0 cmcGame cmcR2 ∧
    cmcImg 1 = cmcSfix (cmcImg 5) (cmcGame.area 1).size :=
  ⟨(cmc_sfix_derived cmcGfx cmcSfix cmcM1 none 0 cmcGame cmcR1 cmcR2 (by decide)).1.1,
   (cmc_sfix_derived cmcGfx cmcSfix cmcM1 none 0 cmcGame cmcR1 cmcR2 (by decide)).1.2
     cmcImg rfl⟩

end Terraonion
